import Mathlib

/-!
# GreaseMonkey script manager (`GreaseMonkey/gm_manager.cpp`)

A shallow embedding of `GM_Manager`: the registry of userscripts (two ordered groups of
`GM_Script*` and the list of disabled names), its mutators, the persistence of the disabled
list, and the per-navigation injection pass `pageLoadStart`.

Modelling conventions.

* `GM_Script*` is an address (`Ptr`, a natural number, `0` being the null pointer). The
  `GM_Script` objects live in an explicit store `heap : Ptr → Option GM_Script`; `delete`
  empties the cell. Dereferencing a null or released pointer is undefined behaviour in C++;
  every operation that does so returns `none`.
* `QString` is `String`, `QStringList` is `List String`, `QList<GM_Script*>` is `List Ptr`;
  `QList::append` is `++ [x]`, `QList::removeOne` is `List.erase` (first occurrence only),
  `QStringList::contains` is list membership.
* Effects on the outside world are recorded in the state: the calls `QFile::remove`
  (`removedFiles`) and the emissions of the signal `scriptsChanged` (`scriptsChanged`).
  The texts handed to `QWebFrame::evaluateJavaScript` are the result of `pageLoadStart`.
-/

namespace GreaseMonkey

/-! ## Data model -/

/-- Enumeration `GM_Script::StartAt`. -/
inductive StartAt where
  | DocumentStart
  | DocumentEnd
  deriving DecidableEq, Repr

/-- Modelled from the spec: the class `GM_Script` (declared in `gm_script.h`, which is not
among the sources). The fields are the ones of the spec's ScriptDescriptor; `script` is the
assembled text returned by `GM_Script::script()` and `startAt` the value of
`GM_Script::startAt()`. -/
structure GM_Script where
  name : String := ""
  nameSpace : String := ""
  description : String := ""
  version : String := ""
  fullName : String
  fileName : String := ""
  includePatterns : List String := []
  excludePatterns : List String := []
  requireUrls : List String := []
  startAt : StartAt := StartAt.DocumentEnd
  script : String := ""
  enabled : Bool := true
  deriving DecidableEq, Repr

/-- Modelled from the spec: `GM_Script::setEnabled` (gm_script.cpp is not among the
sources); it sets the `enabled` flag and nothing else. -/
def GM_Script.setEnabled (s : GM_Script) (b : Bool) : GM_Script :=
  { s with enabled := b }

/-- Modelled from the spec: the glob matching of one pattern against a URL (spec 4.2;
gm_script.cpp is not among the sources). `*` matches any run of characters, every other
character matches itself, and the whole URL must match the whole pattern. -/
def globMatch : List Char → List Char → Bool
  | [], cs => cs.isEmpty
  | p :: ps, cs =>
    if p == '*' then cs.tails.any (globMatch ps)
    else
      match cs with
      | [] => false
      | c :: rest => p == c && globMatch ps rest

/-- Modelled from the spec: the pattern part of the Match Engine (spec 4.2): no exclude
pattern matches, and the include list is empty or one of its patterns matches. -/
def GM_Script.patternsMatch (s : GM_Script) (urlString : String) : Bool :=
  !(s.excludePatterns.any fun p => globMatch p.toList urlString.toList) &&
    (s.includePatterns.isEmpty ||
      s.includePatterns.any fun p => globMatch p.toList urlString.toList)

/-- Modelled from the spec: `GM_Script::match` (gm_script.cpp is not among the sources).
It is the only filter `pageLoadStart` applies to a script, and spec 4.4 describes the
scripts that pass it as "every enabled script whose pattern set matches the URL": the
script is enabled and its patterns match (spec 4.2). -/
def GM_Script.match (s : GM_Script) (urlString : String) : Bool :=
  s.enabled && s.patternsMatch urlString

/-- An address of a `GM_Script` object (`GM_Script*`). -/
abbrev Ptr := Nat

/-- The null pointer. -/
def nullptr : Ptr := 0

/-- State of a `GM_Manager` together with the `GM_Script` objects it points to and the
record of its outside effects. -/
structure GM_Manager where
  heap : Ptr → Option GM_Script := fun _ => none
  m_startScripts : List Ptr := []
  m_endScripts : List Ptr := []
  m_disabledScripts : List String := []
  m_bootstrap : String := ""
  removedFiles : List String := []
  scriptsChanged : Nat := 0

/-- Dereference of a `GM_Script*`: `none` for the null pointer and for an address that
holds no object. -/
def GM_Manager.deref (m : GM_Manager) (p : Ptr) : Option GM_Script :=
  if p = nullptr then none else m.heap p

/-- Store `s` at the address `p`. -/
def GM_Manager.store (m : GM_Manager) (p : Ptr) (s : GM_Script) : GM_Manager :=
  { m with heap := fun q => if q = p then some s else m.heap q }

/-- Release the object at the address `p` (`delete script`). -/
def GM_Manager.free (m : GM_Manager) (p : Ptr) : GM_Manager :=
  { m with heap := fun q => if q = p then none else m.heap q }

/-! ## Queries -/

/-- `GM_Manager::allScripts`. -/
def GM_Manager.allScripts (m : GM_Manager) : List Ptr :=
  let list : List Ptr := []
  let list := list ++ m.m_startScripts
  let list := list ++ m.m_endScripts
  list

/-- One `foreach` loop of `GM_Manager::containsScript`: `some true` is the early
`return true`, `some false` means the loop ran to its end. -/
def GM_Manager.containsLoop (m : GM_Manager) (fullName : String) : List Ptr → Option Bool
  | [] => some false
  | p :: ps =>
    match m.deref p with
    | none => none
    | some script => if fullName = script.fullName then some true else m.containsLoop fullName ps

/-- `GM_Manager::containsScript`. -/
def GM_Manager.containsScript (m : GM_Manager) (fullName : String) : Option Bool :=
  match m.containsLoop fullName m.m_startScripts with
  | none => none
  | some true => some true
  | some false =>
    match m.containsLoop fullName m.m_endScripts with
    | none => none
    | some true => some true
    | some false => some false

/-- `GM_Manager::canRunOnScheme`. -/
def canRunOnScheme (scheme : String) : Bool :=
  scheme == "http" || scheme == "https" || scheme == "data" || scheme == "ftp"

/-! ## Mutators -/

/-- `GM_Manager::enableScript`. -/
def GM_Manager.enableScript (m : GM_Manager) (script : Ptr) : Option GM_Manager :=
  match m.deref script with
  | none => none
  | some s =>
    let m := m.store script (s.setEnabled true)
    some { m with m_disabledScripts := m.m_disabledScripts.erase s.fullName }

/-- `GM_Manager::disableScript`. -/
def GM_Manager.disableScript (m : GM_Manager) (script : Ptr) : Option GM_Manager :=
  match m.deref script with
  | none => none
  | some s =>
    let m := m.store script (s.setEnabled false)
    some { m with m_disabledScripts := m.m_disabledScripts ++ [s.fullName] }

/-- `GM_Manager::addScript`. -/
def GM_Manager.addScript (m : GM_Manager) (script : Ptr) : Option (Bool × GM_Manager) :=
  if script = nullptr then some (false, m)
  else
    match m.deref script with
    | none => none
    | some s =>
      let m :=
        if s.startAt = StartAt.DocumentStart then
          { m with m_startScripts := m.m_startScripts ++ [script] }
        else
          { m with m_endScripts := m.m_endScripts ++ [script] }
      some (true, { m with scriptsChanged := m.scriptsChanged + 1 })

/-- `GM_Manager::removeScript`. -/
def GM_Manager.removeScript (m : GM_Manager) (script : Ptr) : Option (Bool × GM_Manager) :=
  if script = nullptr then some (false, m)
  else
    match m.deref script with
    | none => none
    | some s =>
      let m :=
        if s.startAt = StartAt.DocumentStart then
          { m with m_startScripts := m.m_startScripts.erase script }
        else
          { m with m_endScripts := m.m_endScripts.erase script }
      let m := { m with m_disabledScripts := m.m_disabledScripts.erase s.fullName }
      let m := { m with removedFiles := m.removedFiles ++ [s.fileName] }
      let m := m.free script
      some (true, { m with scriptsChanged := m.scriptsChanged + 1 })

/-! ## Persistence -/

/-- The value stored under `GreaseMonkey/disabledScripts` in `extensions.ini`; `none` when
the key is absent. -/
abbrev Settings := Option (List String)

/-- `GM_Manager::saveSettings`: the content of the key after the call. -/
def GM_Manager.saveSettings (m : GM_Manager) (_settings : Settings) : Settings :=
  some m.m_disabledScripts

/-- What `GM_Manager::load` reads from outside: the persisted settings, and for every entry
of `gmDir.entryList("*.js", QDir::Files)`, in listing order, the address `new` returns and
the object the `GM_Script` constructor builds from the file; and the bootstrap resource. -/
structure LoadEnv where
  settings : Settings := none
  entries : List (Ptr × GM_Script) := []
  bootstrap : String := ""

/-- Modelled from the spec: the `GM_Script` constructor (gm_script.cpp is not among the
sources) leaves a new descriptor enabled ("default true unless restored as disabled").
`new` never returns null nor the address of a live object (`none` otherwise). -/
def GM_Manager.newScript (m : GM_Manager) (p : Ptr) (parsed : GM_Script) :
    Option GM_Manager :=
  if p = nullptr then none
  else
    match m.heap p with
    | some _ => none
    | none => some (m.store p (parsed.setEnabled true))

/-- The `foreach` loop over the directory entries of `GM_Manager::load`. -/
def GM_Manager.loadLoop (m : GM_Manager) : List (Ptr × GM_Script) → Option GM_Manager
  | [] => some m
  | (p, parsed) :: rest =>
    match m.newScript p parsed with
    | none => none
    | some m =>
      match m.deref p with
      | none => none
      | some script =>
        let m :=
          if script.fullName ∈ m.m_disabledScripts then m.store p (script.setEnabled false)
          else m
        let m :=
          if script.startAt = StartAt.DocumentStart then
            { m with m_startScripts := m.m_startScripts ++ [p] }
          else
            { m with m_endScripts := m.m_endScripts ++ [p] }
        m.loadLoop rest

/-- `GM_Manager::load` (the creation of the directories is not modelled). -/
def GM_Manager.load (m : GM_Manager) (env : LoadEnv) : Option GM_Manager :=
  let m := { m with m_disabledScripts := env.settings.getD [] }
  match m.loadLoop env.entries with
  | none => none
  | some m => some { m with m_bootstrap := env.bootstrap }

/-- The state of a `GM_Manager` right after its constructor: no script, nothing disabled. -/
def GM_Manager.new : GM_Manager := {}

/-! ## Injection -/

/-- The frame that sent `loadStarted`: scheme and encoded form of its URL. -/
structure QWebFrame where
  scheme : String
  encoded : String
  deriving DecidableEq, Repr

/-- One call of `frame->evaluateJavaScript`: the script it is made for and the text. -/
structure Evaluation where
  script : Ptr
  text : String
  deriving DecidableEq, Repr

/-- The deferral wrapper of `pageLoadStart`:
`QString("window.addEventListener(\"DOMContentLoaded\",function(e) { %1 }, false);").arg(js)`;
the template holds the one place marker `%1`. -/
def deferred (js : String) : String :=
  "window.addEventListener(\"DOMContentLoaded\",function(e) \x7b " ++ js ++ " \x7d, false);"

/-- One `foreach` loop of `pageLoadStart` over a group, `wrap` building the evaluated text
from `m_bootstrap + script->script()`. -/
def GM_Manager.evaluateGroup (m : GM_Manager) (urlString : String) (wrap : String → String) :
    List Ptr → Option (List Evaluation)
  | [] => some []
  | p :: ps =>
    match m.deref p with
    | none => none
    | some script =>
      match m.evaluateGroup urlString wrap ps with
      | none => none
      | some rest =>
        if script.match urlString then
          some (⟨p, wrap (m.m_bootstrap ++ script.script)⟩ :: rest)
        else some rest

/-- `GM_Manager::pageLoadStart`: the calls of `evaluateJavaScript` it makes, in order.
`frame` is the result of `qobject_cast<QWebFrame*>(sender())`. -/
def GM_Manager.pageLoadStart (m : GM_Manager) (frame : Option QWebFrame) :
    Option (List Evaluation) :=
  match frame with
  | none => some []
  | some frame =>
    let urlScheme := frame.scheme
    let urlString := frame.encoded
    if !canRunOnScheme urlScheme then some []
    else
      match m.evaluateGroup urlString id m.m_startScripts with
      | none => none
      | some starts =>
        match m.evaluateGroup urlString deferred m.m_endScripts with
        | none => none
        | some ends => some (starts ++ ends)

/-- The sequence of texts `pageLoadStart` hands to the execution environment. -/
def GM_Manager.plan (m : GM_Manager) (frame : Option QWebFrame) : Option (List String) :=
  (m.pageLoadStart frame).map fun es => es.map Evaluation.text

/-! ## requireScripts -/

/-- Characters `QString::trimmed` strips (`QChar::isSpace`): the ASCII white space
`U+0009 .. U+000D` and `U+0020`, then `U+0085`, `U+00A0` and the Unicode separators. -/
def isSpace (c : Char) : Bool :=
  let n := c.toNat
  n == 0x20 || (9 ≤ n && n ≤ 13) || n == 0x85 || n == 0xA0 || n == 0x1680 || n == 0x180E ||
    (0x2000 ≤ n && n ≤ 0x200A) || n == 0x2028 || n == 0x2029 || n == 0x202F || n == 0x205F ||
    n == 0x3000

/-- `QString::trimmed`. -/
def trimmed (s : String) : String :=
  String.mk ((s.toList.dropWhile isSpace).reverse.dropWhile isSpace).reverse

/-- What `GM_Manager::requireScripts` reads from outside. -/
structure RequiresEnv where
  requiresDirExists : Bool
  files : String → Option String
  readAllFileContents : String → String

/-- `GM_Manager::requireScripts`; `env.files` is the group `Files` of `requires.ini`. -/
def requireScripts (env : RequiresEnv) (urlList : List String) : String :=
  if !env.requiresDirExists || urlList.isEmpty then ""
  else
    urlList.foldl
      (fun script url =>
        match env.files url with
        | some fileName => script ++ (trimmed (env.readAllFileContents fileName) ++ "\n")
        | none => script)
      ""

/-! ## Specification vocabulary -/

/-- Every pointer of both groups points to an object. -/
def GM_Manager.Valid (m : GM_Manager) : Prop :=
  ∀ p ∈ m.allScripts, (m.deref p).isSome = true

/-- The scripts of a group that match a URL, in group order. -/
def GM_Manager.matching (m : GM_Manager) (urlString : String) (group : List Ptr) :
    List GM_Script :=
  group.filterMap fun p => (m.deref p).filter fun s => s.match urlString

/-- The evaluation `pageLoadStart` makes for the script at `p`, if it makes one. -/
def GM_Manager.evaluationOf (m : GM_Manager) (urlString : String) (wrap : String → String)
    (p : Ptr) : Option Evaluation :=
  match m.deref p with
  | none => none
  | some s => if s.match urlString then some ⟨p, wrap (m.m_bootstrap ++ s.script)⟩ else none

/-- Whether the script at `p` passes the filter of `pageLoadStart` for a URL. -/
def GM_Manager.matches (m : GM_Manager) (urlString : String) (p : Ptr) : Bool :=
  match m.deref p with
  | none => false
  | some s => s.match urlString

instance (m : GM_Manager) : Decidable m.Valid := by
  unfold GM_Manager.Valid
  infer_instance

/-- The pieces `requireScripts` appends: for each URL with an entry in the index, in list
order, the trimmed content of its cached file followed by a newline. -/
def requirePieces (env : RequiresEnv) (urlList : List String) : List String :=
  (urlList.filterMap env.files).map fun fileName =>
    trimmed (env.readAllFileContents fileName) ++ "\n"

/-- Concatenation of a list of strings, in order. -/
def concat (pieces : List String) : String :=
  pieces.foldr (fun piece rest => piece ++ rest) ""

/-- The state after one iteration of the loop of `load` that succeeds: the new descriptor
at `p`, enabled unless its name is in the disabled list, appended to its group. -/
def GM_Manager.loadStep (m : GM_Manager) (p : Ptr) (parsed : GM_Script) : GM_Manager :=
  { m with
    heap := fun q =>
      if q = p then some (parsed.setEnabled (decide (parsed.fullName ∉ m.m_disabledScripts)))
      else m.heap q,
    m_startScripts :=
      if parsed.startAt = StartAt.DocumentStart then m.m_startScripts ++ [p]
      else m.m_startScripts,
    m_endScripts :=
      if parsed.startAt = StartAt.DocumentStart then m.m_endScripts
      else m.m_endScripts ++ [p] }

/-- The directory entries are well formed: `new` returned pairwise distinct, non-null
addresses. -/
def WellFormedEntries (entries : List (Ptr × GM_Script)) : Prop :=
  (entries.map Prod.fst).Nodup ∧ ∀ e ∈ entries, e.1 ≠ nullptr

instance (entries : List (Ptr × GM_Script)) : Decidable (WellFormedEntries entries) := by
  unfold WellFormedEntries
  infer_instance

/-- `saveSettings` at shutdown followed by `load` in a new manager, from the directory
`entries`. -/
def GM_Manager.saveAndReload (m : GM_Manager) (entries : List (Ptr × GM_Script))
    (bootstrap : String) : Option GM_Manager :=
  GM_Manager.new.load
    { settings := m.saveSettings none, entries := entries, bootstrap := bootstrap }

/-- Whether the script at `p` is disabled and has the full name `n`. -/
def GM_Manager.disabledNamed (m : GM_Manager) (n : String) (p : Ptr) : Bool :=
  match m.deref p with
  | none => false
  | some s => decide (s.fullName = n) && !s.enabled

/-- Consistency of a registry: no descriptor is registered twice, every registered
descriptor points to a script and sits in the group of its `startAt`, and no name occurs in
the disabled list more often than there are registered, disabled scripts of that name. -/
structure GM_Manager.Consistent (m : GM_Manager) : Prop where
  nodup : m.allScripts.Nodup
  valid : m.Valid
  inStart : ∀ p ∈ m.m_startScripts, ∀ s, m.deref p = some s →
    s.startAt = StartAt.DocumentStart
  inEnd : ∀ p ∈ m.m_endScripts, ∀ s, m.deref p = some s → s.startAt ≠ StartAt.DocumentStart
  counted : ∀ n, m.m_disabledScripts.count n ≤ m.allScripts.countP (m.disabledNamed n)

/-- Registry states reached from a load by the calls the user interface makes: `load` reads
a duplicate-free disabled list that names only scripts of the directory; a descriptor is
created by `new GM_Script`; `addScript` gets a descriptor that is not registered yet;
`removeScript` gets a registered one; `enableScript` gets any live one; `disableScript` gets
a registered descriptor whose script is enabled. -/
inductive Reachable : GM_Manager → Prop where
  | load (env : LoadEnv) (m : GM_Manager) :
      (env.settings.getD []).Nodup →
      (∀ n ∈ env.settings.getD [], ∃ e ∈ env.entries, e.2.fullName = n) →
      GM_Manager.new.load env = some m → Reachable m
  | newScript (m : GM_Manager) (p : Ptr) (parsed : GM_Script) (m' : GM_Manager) :
      Reachable m → m.newScript p parsed = some m' → Reachable m'
  | addScript (m : GM_Manager) (p : Ptr) (m' : GM_Manager) :
      Reachable m → p ∉ m.allScripts → m.addScript p = some (true, m') → Reachable m'
  | removeScript (m : GM_Manager) (p : Ptr) (m' : GM_Manager) :
      Reachable m → p ∈ m.allScripts → m.removeScript p = some (true, m') → Reachable m'
  | enableScript (m : GM_Manager) (p : Ptr) (m' : GM_Manager) :
      Reachable m → m.enableScript p = some m' → Reachable m'
  | disableScript (m : GM_Manager) (p : Ptr) (s : GM_Script) (m' : GM_Manager) :
      Reachable m → p ∈ m.allScripts → m.deref p = some s → s.enabled = true →
      m.disableScript p = some m' → Reachable m'

/-! ## Sample registries -/

/-- A requires cache with two entries; `http://x/none.js` has none. -/
def sampleRequires : RequiresEnv :=
  { requiresDirExists := true,
    files := fun url =>
      if url = "http://x/a.js" then some "/gm/requires/a"
      else if url = "http://x/b.js" then some "/gm/requires/b" else none,
    readAllFileContents := fun fileName =>
      if fileName = "/gm/requires/a" then "  var a;\n" else
      if fileName = "/gm/requires/b" then "var b; " else "" }

/-- A script run at document start, matching every URL. -/
def scriptA : GM_Script :=
  { fullName := "ns/A", name := "A", fileName := "/gm/a.js",
    startAt := StartAt.DocumentStart, script := "a();" }

/-- A script run at document end, matching only `*.example.com/*`. -/
def scriptB : GM_Script :=
  { fullName := "ns/B", name := "B", fileName := "/gm/b.js",
    includePatterns := ["*.example.com/*"], script := "b();" }

/-- A disabled script that would match every URL. -/
def scriptC : GM_Script :=
  { fullName := "ns/C", name := "C", fileName := "/gm/c.js", script := "c();", enabled := false }

/-- Registry with `scriptA` at address 1, `scriptB` at 2 and `scriptC` at 3. -/
def sampleManager : GM_Manager :=
  { heap := fun q =>
      if q = 1 then some scriptA else if q = 2 then some scriptB
      else if q = 3 then some scriptC else none,
    m_startScripts := [1], m_endScripts := [2, 3], m_disabledScripts := ["ns/C"],
    m_bootstrap := "boot;" }

/-- The script directory behind `sampleManager`. -/
def sampleDir : List (Ptr × GM_Script) :=
  [(1, scriptA), (2, scriptB), (3, scriptC)]

/-- What `load` finds behind `sampleManager`: the sample directory and a disabled list
naming `scriptC`. -/
def sampleEnv : LoadEnv :=
  { settings := some ["ns/C"], entries := sampleDir, bootstrap := "boot;" }

/-- The registry `load` builds from `sampleEnv` in a new manager. -/
def sampleLoaded : GM_Manager :=
  (GM_Manager.new.load sampleEnv).getD GM_Manager.new

/-- The registry `sampleLoaded` after `disableScript` on `scriptB`. -/
def sampleDisabled : GM_Manager :=
  (sampleLoaded.disableScript 2).getD GM_Manager.new

/-! ## Lemmas -/

theorem deref_store_same (m : GM_Manager) (p : Ptr) (s : GM_Script) (hp : p ≠ nullptr) :
    (m.store p s).deref p = some s := by
  simp [GM_Manager.deref, GM_Manager.store, hp]

theorem deref_store_other (m : GM_Manager) (p q : Ptr) (s : GM_Script) (hq : q ≠ p) :
    (m.store p s).deref q = m.deref q := by
  simp [GM_Manager.deref, GM_Manager.store, hq]

theorem deref_ne_null (m : GM_Manager) (p : Ptr) (s : GM_Script) (h : m.deref p = some s) :
    p ≠ nullptr := by
  intro hp
  simp [GM_Manager.deref, hp] at h

theorem filter_ne_erase (l : List String) (a : String) :
    (l.erase a).filter (fun x => decide (x ≠ a)) = l.filter (fun x => decide (x ≠ a)) := by
  induction l with
  | nil => rfl
  | cons x xs ih =>
    by_cases hx : x = a
    · subst hx
      simp
    · have hxa : (x == a) = false := by simpa using hx
      rw [List.erase_cons, hxa]
      simp only [Bool.false_eq_true, if_false, List.filter_cons, ih]

theorem filter_ne_append_self (l : List String) (a : String) :
    (l ++ [a]).filter (fun x => decide (x ≠ a)) = l.filter (fun x => decide (x ≠ a)) := by
  simp [List.filter_append]

theorem containsLoop_spec (m : GM_Manager) (n : String) (ps : List Ptr)
    (h : ∀ p ∈ ps, (m.deref p).isSome = true) :
    ∃ b, m.containsLoop n ps = some b ∧
      (b = true ↔ ∃ p ∈ ps, ∃ s, m.deref p = some s ∧ s.fullName = n) := by
  induction ps with
  | nil => exact ⟨false, rfl, by simp⟩
  | cons p ps ih =>
    obtain ⟨b, hb, hiff⟩ := ih fun q hq => h q (List.mem_cons_of_mem _ hq)
    obtain ⟨s, hs⟩ := Option.isSome_iff_exists.mp (h p (List.mem_cons_self _ _))
    by_cases hn : n = s.fullName
    · refine ⟨true, by simp [GM_Manager.containsLoop, hs, hn], ?_⟩
      simp only [true_iff]
      exact ⟨p, List.mem_cons_self _ _, s, hs, hn.symm⟩
    · refine ⟨b, by simp [GM_Manager.containsLoop, hs, hn, hb], ?_⟩
      rw [hiff]
      constructor
      · rintro ⟨q, hq, t, ht, htn⟩
        exact ⟨q, List.mem_cons_of_mem _ hq, t, ht, htn⟩
      · rintro ⟨q, hq, t, ht, htn⟩
        rcases List.mem_cons.mp hq with rfl | hq
        · rw [hs] at ht
          cases ht
          exact absurd htn.symm hn
        · exact ⟨q, hq, t, ht, htn⟩

theorem evaluateGroup_eq (m : GM_Manager) (urlString : String) (wrap : String → String)
    (ps : List Ptr) (h : ∀ p ∈ ps, (m.deref p).isSome = true) :
    m.evaluateGroup urlString wrap ps = some (ps.filterMap (m.evaluationOf urlString wrap)) := by
  induction ps with
  | nil => rfl
  | cons p ps ih =>
    obtain ⟨s, hs⟩ := Option.isSome_iff_exists.mp (h p (List.mem_cons_self _ _))
    have ih := ih fun q hq => h q (List.mem_cons_of_mem _ hq)
    by_cases hm : s.match urlString = true
    · simp [GM_Manager.evaluateGroup, hs, ih, List.filterMap_cons, GM_Manager.evaluationOf, hm]
    · simp [GM_Manager.evaluateGroup, hs, ih, List.filterMap_cons, GM_Manager.evaluationOf, hm]

theorem evaluationOf_text_map (m : GM_Manager) (urlString : String) (wrap : String → String)
    (ps : List Ptr) :
    (ps.filterMap (m.evaluationOf urlString wrap)).map Evaluation.text =
      (m.matching urlString ps).map fun s => wrap (m.m_bootstrap ++ s.script) := by
  induction ps with
  | nil => rfl
  | cons p ps ih =>
    cases hs : m.deref p with
    | none => simpa [GM_Manager.matching, GM_Manager.evaluationOf, List.filterMap_cons, hs] using ih
    | some s =>
      by_cases hm : s.match urlString = true
      · simpa [GM_Manager.matching, GM_Manager.evaluationOf, List.filterMap_cons, hs, hm,
          Option.filter] using ih
      · simpa [GM_Manager.matching, GM_Manager.evaluationOf, List.filterMap_cons, hs, hm,
          Option.filter] using ih

theorem evaluationOf_script (m : GM_Manager) (urlString : String) (wrap : String → String)
    (p : Ptr) (e : Evaluation) (h : m.evaluationOf urlString wrap p = some e) :
    e.script = p ∧ ∃ s, m.deref p = some s ∧ s.match urlString = true ∧
      e.text = wrap (m.m_bootstrap ++ s.script) := by
  unfold GM_Manager.evaluationOf at h
  cases hs : m.deref p with
  | none => simp [hs] at h
  | some s =>
    by_cases hm : s.match urlString = true
    · simp [hs, hm] at h
      subst h
      exact ⟨rfl, s, rfl, hm, rfl⟩
    · simp [hs, hm] at h

theorem valid_start (m : GM_Manager) (h : m.Valid) :
    ∀ p ∈ m.m_startScripts, (m.deref p).isSome = true := fun p hp =>
  h p (by simp [GM_Manager.allScripts, hp])

theorem valid_end (m : GM_Manager) (h : m.Valid) :
    ∀ p ∈ m.m_endScripts, (m.deref p).isSome = true := fun p hp =>
  h p (by simp [GM_Manager.allScripts, hp])

theorem pageLoadStart_eq (m : GM_Manager) (frame : QWebFrame) (h : m.Valid)
    (hs : canRunOnScheme frame.scheme = true) :
    m.pageLoadStart (some frame) =
      some (m.m_startScripts.filterMap (m.evaluationOf frame.encoded id) ++
        m.m_endScripts.filterMap (m.evaluationOf frame.encoded deferred)) := by
  simp [GM_Manager.pageLoadStart, hs, evaluateGroup_eq m _ _ _ (valid_start m h),
    evaluateGroup_eq m _ _ _ (valid_end m h)]

theorem evaluationOf_script_map (m : GM_Manager) (urlString : String) (wrap : String → String)
    (ps : List Ptr) :
    (ps.filterMap (m.evaluationOf urlString wrap)).map Evaluation.script =
      ps.filter (m.matches urlString) := by
  induction ps with
  | nil => rfl
  | cons p ps ih =>
    cases hs : m.deref p with
    | none =>
      simpa [GM_Manager.matches, GM_Manager.evaluationOf, List.filterMap_cons, List.filter_cons,
        hs] using ih
    | some s =>
      by_cases hm : s.match urlString = true
      · simpa [GM_Manager.matches, GM_Manager.evaluationOf, List.filterMap_cons,
          List.filter_cons, hs, hm] using ih
      · simpa [GM_Manager.matches, GM_Manager.evaluationOf, List.filterMap_cons,
          List.filter_cons, hs, hm] using ih

theorem pageLoadStart_total (m : GM_Manager) (frame : Option QWebFrame) (h : m.Valid) :
    ∃ es, m.pageLoadStart frame = some es ∧ ∀ e ∈ es, ∃ u, m.matches u e.script = true := by
  cases frame with
  | none => exact ⟨[], rfl, by simp⟩
  | some frame =>
    by_cases hs : canRunOnScheme frame.scheme = true
    · refine ⟨_, pageLoadStart_eq m frame h hs, ?_⟩
      intro e he
      refine ⟨frame.encoded, ?_⟩
      rcases List.mem_append.mp he with he | he
      · obtain ⟨p, _, hp⟩ := List.mem_filterMap.mp he
        obtain ⟨hep, s, hds, hm, _⟩ := evaluationOf_script m _ _ p e hp
        simp [GM_Manager.matches, hep, hds, hm]
      · obtain ⟨p, _, hp⟩ := List.mem_filterMap.mp he
        obtain ⟨hep, s, hds, hm, _⟩ := evaluationOf_script m _ _ p e hp
        simp [GM_Manager.matches, hep, hds, hm]
    · exact ⟨[], by simp [GM_Manager.pageLoadStart, hs], by simp⟩

theorem matches_false_of_disabled (m : GM_Manager) (u : String) (p : Ptr) (s : GM_Script)
    (hp : m.deref p = some s) (hd : s.enabled = false) : m.matches u p = false := by
  simp [GM_Manager.matches, hp, GM_Script.match, hd]

/-! ## The scheme gate and the injection plan -/

/-- C1: `canRunOnScheme` is true exactly on the four strings "http", "https", "data" and
"ftp", compared case-sensitively ("HTTP" is refused), and for every registry state and every
frame whose URL scheme is refused `pageLoadStart` evaluates nothing: the plan is empty. -/
theorem canRunOnScheme_gate :
    (∀ scheme : String, canRunOnScheme scheme = true ↔
      (scheme = "http" ∨ scheme = "https" ∨ scheme = "data" ∨ scheme = "ftp")) ∧
    canRunOnScheme "HTTP" = false ∧
    (∀ (m : GM_Manager) (frame : QWebFrame), canRunOnScheme frame.scheme = false →
      m.pageLoadStart (some frame) = some [] ∧ m.plan (some frame) = some []) := by
  refine ⟨?_, by decide, ?_⟩
  · intro scheme
    simp [canRunOnScheme, or_assoc]
  · intro m frame h
    simp [GM_Manager.plan, GM_Manager.pageLoadStart, h]

/-- Witness of C1: a `file` URL on the sample registry. -/
theorem canRunOnScheme_gate_witness :
    canRunOnScheme "file" = false ∧
      sampleManager.pageLoadStart (some ⟨"file", "file:///tmp/x.html"⟩) = some [] :=
  ⟨by decide, (canRunOnScheme_gate.2.2 sampleManager ⟨"file", "file:///tmp/x.html"⟩
    (by decide)).1⟩

/-- C2: for a registry whose groups hold live descriptors and a URL with an allowed scheme,
the texts `pageLoadStart` evaluates are: for each matching script of the start group, in
group order, bootstrap followed by the script text; then, for each matching script of the
end group, in group order, the same text inside the DOMContentLoaded wrapper. The evaluations
are made for exactly the matching scripts of the start group followed by those of the end
group. -/
theorem pageLoadStart_plan (m : GM_Manager) (frame : QWebFrame) (hv : m.Valid)
    (hs : canRunOnScheme frame.scheme = true) :
    m.plan (some frame) =
      some ((m.matching frame.encoded m.m_startScripts).map (fun s => m.m_bootstrap ++ s.script) ++
        (m.matching frame.encoded m.m_endScripts).map
          (fun s => deferred (m.m_bootstrap ++ s.script))) ∧
    ∃ starts ends, m.pageLoadStart (some frame) = some (starts ++ ends) ∧
      starts.map Evaluation.script = m.m_startScripts.filter (m.matches frame.encoded) ∧
      ends.map Evaluation.script = m.m_endScripts.filter (m.matches frame.encoded) := by
  constructor
  · simp only [GM_Manager.plan, pageLoadStart_eq m frame hv hs, Option.map_some', List.map_append,
      evaluationOf_text_map]
    rfl
  · exact ⟨_, _, pageLoadStart_eq m frame hv hs, evaluationOf_script_map m _ _ _,
      evaluationOf_script_map m _ _ _⟩

/-- Witness of C2: the sample registry on a URL both enabled scripts match. -/
theorem pageLoadStart_plan_witness :
    sampleManager.plan (some ⟨"https", "https://shop.example.com/"⟩) =
      some ["boot;a();",
        "window.addEventListener(\"DOMContentLoaded\",function(e) \x7b boot;b(); \x7d, false);"] :=
  (pageLoadStart_plan sampleManager ⟨"https", "https://shop.example.com/"⟩ (by decide)
    (by decide)).1.trans (by decide)

/-- C10: `allScripts` is the start group followed by the end group, and on a registry whose
groups hold live descriptors `containsScript n` returns, and returns true exactly when some
script of `allScripts` has `fullName` equal to `n`. -/
theorem containsScript_iff_allScripts (m : GM_Manager) (n : String) (hv : m.Valid) :
    m.allScripts = m.m_startScripts ++ m.m_endScripts ∧
    ∃ b, m.containsScript n = some b ∧
      (b = true ↔ ∃ p ∈ m.allScripts, ∃ s, m.deref p = some s ∧ s.fullName = n) := by
  refine ⟨by simp [GM_Manager.allScripts], ?_⟩
  obtain ⟨b₁, h₁, i₁⟩ := containsLoop_spec m n _ (valid_start m hv)
  obtain ⟨b₂, h₂, i₂⟩ := containsLoop_spec m n _ (valid_end m hv)
  have hall : (∃ p ∈ m.allScripts, ∃ s, m.deref p = some s ∧ s.fullName = n) ↔
      (b₁ = true ∨ b₂ = true) := by
    rw [i₁, i₂]
    simp only [GM_Manager.allScripts, List.nil_append, List.mem_append]
    constructor
    · rintro ⟨p, hp | hp, h⟩
      · exact Or.inl ⟨p, hp, h⟩
      · exact Or.inr ⟨p, hp, h⟩
    · rintro (⟨p, hp, h⟩ | ⟨p, hp, h⟩)
      · exact ⟨p, Or.inl hp, h⟩
      · exact ⟨p, Or.inr hp, h⟩
  rw [hall]
  cases b₁ <;> cases b₂ <;> simp [GM_Manager.containsScript, h₁, h₂]

/-- Witness of C10: `ns/B` is found in the sample registry. -/
theorem containsScript_iff_allScripts_witness :
    sampleManager.Valid ∧ sampleManager.allScripts = [1, 2, 3] ∧
      sampleManager.containsScript "ns/B" = some true ∧
      sampleManager.containsScript "ns/Z" = some false :=
  ⟨by decide, (containsScript_iff_allScripts sampleManager "ns/B" (by decide)).1.trans rfl,
    by decide, by decide⟩

theorem requireScripts_foldl (env : RequiresEnv) (urlList : List String) (acc : String) :
    urlList.foldl
      (fun script url =>
        match env.files url with
        | some fileName => script ++ (trimmed (env.readAllFileContents fileName) ++ "\n")
        | none => script) acc = acc ++ concat (requirePieces env urlList) := by
  induction urlList generalizing acc with
  | nil => simp [requirePieces, concat]
  | cons url rest ih =>
    rw [List.foldl_cons, ih]
    cases h : env.files url with
    | none => simp [requirePieces, List.filterMap_cons, h]
    | some fileName =>
      simp [requirePieces, concat, List.filterMap_cons, h, String.append_assoc]

theorem valid_of_deref_eq (m m' : GM_Manager) (hv : m.Valid)
    (hall : m'.allScripts = m.allScripts)
    (h : ∀ q, (m.deref q).isSome = true → (m'.deref q).isSome = true) : m'.Valid := by
  intro q hq
  rw [hall] at hq
  exact h q (hv q hq)

theorem disableScript_eq (m : GM_Manager) (p : Ptr) (s : GM_Script) (h : m.deref p = some s) :
    m.disableScript p = some { m.store p (s.setEnabled false) with
      m_disabledScripts := m.m_disabledScripts ++ [s.fullName] } := by
  simp [GM_Manager.disableScript, h, GM_Manager.store]

theorem enableScript_eq (m : GM_Manager) (p : Ptr) (s : GM_Script) (h : m.deref p = some s) :
    m.enableScript p = some { m.store p (s.setEnabled true) with
      m_disabledScripts := m.m_disabledScripts.erase s.fullName } := by
  simp [GM_Manager.enableScript, h, GM_Manager.store]

theorem addScript_eq (m : GM_Manager) (p : Ptr) (s : GM_Script) (h : m.deref p = some s) :
    m.addScript p = some (true, { m with
      m_startScripts :=
        if s.startAt = StartAt.DocumentStart then m.m_startScripts ++ [p] else m.m_startScripts,
      m_endScripts :=
        if s.startAt = StartAt.DocumentStart then m.m_endScripts else m.m_endScripts ++ [p],
      scriptsChanged := m.scriptsChanged + 1 }) := by
  have hp := deref_ne_null m p s h
  by_cases hst : s.startAt = StartAt.DocumentStart <;>
    simp [GM_Manager.addScript, hp, h, hst]

theorem removeScript_eq (m : GM_Manager) (p : Ptr) (s : GM_Script) (h : m.deref p = some s) :
    m.removeScript p = some (true, { m with
      heap := fun q => if q = p then none else m.heap q,
      m_startScripts :=
        if s.startAt = StartAt.DocumentStart then m.m_startScripts.erase p else m.m_startScripts,
      m_endScripts :=
        if s.startAt = StartAt.DocumentStart then m.m_endScripts else m.m_endScripts.erase p,
      m_disabledScripts := m.m_disabledScripts.erase s.fullName,
      removedFiles := m.removedFiles ++ [s.fileName],
      scriptsChanged := m.scriptsChanged + 1 }) := by
  have hp := deref_ne_null m p s h
  by_cases hst : s.startAt = StartAt.DocumentStart <;>
    simp [GM_Manager.removeScript, GM_Manager.free, hp, h, hst]

theorem deref_with_disabled (m : GM_Manager) (l : List String) (q : Ptr) :
    GM_Manager.deref { m with m_disabledScripts := l } q = m.deref q := rfl

theorem loadLoop_cons (m : GM_Manager) (p : Ptr) (parsed : GM_Script)
    (rest : List (Ptr × GM_Script)) :
    m.loadLoop ((p, parsed) :: rest) =
      if p = nullptr ∨ (m.heap p).isSome = true then none
      else (m.loadStep p parsed).loadLoop rest := by
  by_cases hp : p = nullptr
  · simp [GM_Manager.loadLoop, GM_Manager.newScript, hp]
  · cases hh : m.heap p with
    | some t => simp [GM_Manager.loadLoop, GM_Manager.newScript, hp, hh]
    | none =>
      have hstep : ∀ m₁ m₂ : GM_Manager, m₁ = m₂ → m₁.loadLoop rest = m₂.loadLoop rest :=
        fun _ _ h => h ▸ rfl
      by_cases hd : parsed.fullName ∈ m.m_disabledScripts <;>
        by_cases hst : parsed.startAt = StartAt.DocumentStart <;>
        · simp only [GM_Manager.loadLoop, GM_Manager.newScript, hp, hh, if_false, false_or,
            Option.isSome_none, Bool.false_eq_true, deref_store_same _ _ _ hp]
          apply hstep
          simp [GM_Manager.loadStep, GM_Manager.store, GM_Script.setEnabled, hd, hst]
          try (funext q; split <;> rfl)

theorem loadLoop_spec (entries : List (Ptr × GM_Script)) :
    ∀ m m' : GM_Manager, m.loadLoop entries = some m' →
      m'.m_disabledScripts = m.m_disabledScripts ∧
      m'.m_startScripts = m.m_startScripts ++
        (entries.filter fun e => decide (e.2.startAt = StartAt.DocumentStart)).map Prod.fst ∧
      m'.m_endScripts = m.m_endScripts ++
        (entries.filter fun e => !decide (e.2.startAt = StartAt.DocumentStart)).map Prod.fst ∧
      (∀ q, q ∉ entries.map Prod.fst → m'.heap q = m.heap q) ∧
      (∀ e ∈ entries, e.1 ≠ nullptr ∧ m.heap e.1 = none ∧
        m'.heap e.1 =
          some (e.2.setEnabled (decide (e.2.fullName ∉ m.m_disabledScripts)))) ∧
      (entries.map Prod.fst).Nodup := by
  induction entries with
  | nil =>
    intro m m' h
    simp only [GM_Manager.loadLoop, Option.some.injEq] at h
    subst h
    simp
  | cons e rest ih =>
    obtain ⟨p, parsed⟩ := e
    intro m m' h
    rw [loadLoop_cons] at h
    by_cases hbad : p = nullptr ∨ (m.heap p).isSome = true
    · simp [hbad] at h
    · rw [if_neg hbad] at h
      have hp : p ≠ nullptr := fun hp => hbad (Or.inl hp)
      have hh : m.heap p = none := by
        cases hm : m.heap p with
        | none => rfl
        | some t => exact absurd (Or.inr (by simp [hm])) hbad
      obtain ⟨hd, hs, he, hheap, hent, hnd⟩ := ih _ _ h
      have hstep_p : (m.loadStep p parsed).heap p =
          some (parsed.setEnabled (decide (parsed.fullName ∉ m.m_disabledScripts))) := by
        simp [GM_Manager.loadStep]
      have hp_rest : p ∉ rest.map Prod.fst := by
        intro hmem
        obtain ⟨e, he_mem, he_eq⟩ := List.mem_map.mp hmem
        have := (hent e he_mem).2.1
        rw [he_eq, hstep_p] at this
        cases this
      refine ⟨hd, ?_, ?_, ?_, ?_, ?_⟩
      · rw [hs]
        by_cases hst : parsed.startAt = StartAt.DocumentStart <;>
          simp [GM_Manager.loadStep, List.filter_cons, hst]
      · rw [he]
        by_cases hst : parsed.startAt = StartAt.DocumentStart <;>
          simp [GM_Manager.loadStep, List.filter_cons, hst]
      · intro q hq
        have hq' : q ≠ p ∧ q ∉ rest.map Prod.fst := by
          simpa [List.map_cons, List.mem_cons, not_or] using hq
        rw [hheap q hq'.2]
        simp [GM_Manager.loadStep, hq'.1]
      · intro e he_mem
        rcases List.mem_cons.mp he_mem with rfl | he_mem
        · exact ⟨hp, hh, by rw [hheap _ hp_rest, hstep_p]⟩
        · obtain ⟨h1, h2, h3⟩ := hent e he_mem
          have hne : e.1 ≠ p := fun heq => hp_rest (List.mem_map.mpr ⟨e, he_mem, heq⟩)
          refine ⟨h1, ?_, h3⟩
          simpa [GM_Manager.loadStep, hne] using h2
      · rw [List.map_cons, List.nodup_cons]
        exact ⟨hp_rest, hnd⟩

theorem loadLoop_total (entries : List (Ptr × GM_Script)) :
    ∀ m : GM_Manager, WellFormedEntries entries → (∀ e ∈ entries, m.heap e.1 = none) →
      ∃ m', m.loadLoop entries = some m' := by
  induction entries with
  | nil => exact fun m _ _ => ⟨m, rfl⟩
  | cons e rest ih =>
    obtain ⟨p, parsed⟩ := e
    intro m hwf hfree
    obtain ⟨hnd, hnull⟩ := hwf
    rw [List.map_cons, List.nodup_cons] at hnd
    have hp : p ≠ nullptr := hnull (p, parsed) (List.mem_cons_self _ _)
    have hh : m.heap p = none := hfree (p, parsed) (List.mem_cons_self _ _)
    rw [loadLoop_cons, if_neg (by simp [hp, hh])]
    apply ih
    · exact ⟨hnd.2, fun e he => hnull e (List.mem_cons_of_mem _ he)⟩
    · intro e he
      have hne : e.1 ≠ p := fun heq => hnd.1 (List.mem_map.mpr ⟨e, he, heq⟩)
      simpa [GM_Manager.loadStep, hne] using hfree e (List.mem_cons_of_mem _ he)

/-- What `load` builds in a new manager. -/
theorem load_new_spec (env : LoadEnv) (m' : GM_Manager)
    (h : GM_Manager.new.load env = some m') :
    m'.m_disabledScripts = env.settings.getD [] ∧
    m'.m_startScripts =
      (env.entries.filter fun e => decide (e.2.startAt = StartAt.DocumentStart)).map Prod.fst ∧
    m'.m_endScripts =
      (env.entries.filter fun e => !decide (e.2.startAt = StartAt.DocumentStart)).map Prod.fst ∧
    (∀ q, q ∉ env.entries.map Prod.fst → m'.heap q = none) ∧
    (∀ e ∈ env.entries, e.1 ≠ nullptr ∧
      m'.deref e.1 = some (e.2.setEnabled (decide (e.2.fullName ∉ env.settings.getD [])))) ∧
    (env.entries.map Prod.fst).Nodup := by
  unfold GM_Manager.load at h
  simp only at h
  cases hl : GM_Manager.loadLoop
      { GM_Manager.new with m_disabledScripts := env.settings.getD [] } env.entries with
  | none => simp [hl] at h
  | some m₁ =>
    simp only [hl, Option.some.injEq] at h
    subst h
    obtain ⟨hd, hs, he, hheap, hent, hnd⟩ := loadLoop_spec _ _ _ hl
    refine ⟨hd, ?_, ?_, ?_, ?_, hnd⟩
    · simpa [GM_Manager.new] using hs
    · simpa [GM_Manager.new] using he
    · intro q hq
      simpa [GM_Manager.new] using hheap q hq
    · intro e he_mem
      obtain ⟨h1, _, h3⟩ := hent e he_mem
      refine ⟨h1, ?_⟩
      simpa [GM_Manager.deref, h1] using h3

theorem load_new_total (env : LoadEnv) (hwf : WellFormedEntries env.entries) :
    ∃ m', GM_Manager.new.load env = some m' := by
  obtain ⟨m₁, h₁⟩ := loadLoop_total env.entries
    { GM_Manager.new with m_disabledScripts := env.settings.getD [] } hwf
    (fun _ _ => rfl)
  refine ⟨{ m₁ with m_bootstrap := env.bootstrap }, ?_⟩
  unfold GM_Manager.load
  simp only
  rw [h₁]

theorem mem_allScripts (m : GM_Manager) (q : Ptr) :
    q ∈ m.allScripts ↔ q ∈ m.m_startScripts ∨ q ∈ m.m_endScripts := by
  simp [GM_Manager.allScripts]

theorem load_new_mem (env : LoadEnv) (m' : GM_Manager)
    (h : GM_Manager.new.load env = some m') (q : Ptr) :
    q ∈ m'.allScripts ↔ ∃ e ∈ env.entries, e.1 = q := by
  obtain ⟨_, hs, he, _, _, _⟩ := load_new_spec env m' h
  rw [mem_allScripts, hs, he]
  simp only [List.mem_map, List.mem_filter]
  constructor
  · rintro (⟨e, ⟨hm, _⟩, rfl⟩ | ⟨e, ⟨hm, _⟩, rfl⟩)
    · exact ⟨e, hm, rfl⟩
    · exact ⟨e, hm, rfl⟩
  · rintro ⟨e, hm, rfl⟩
    by_cases hst : e.2.startAt = StartAt.DocumentStart
    · exact Or.inl ⟨e, ⟨hm, by simp [hst]⟩, rfl⟩
    · exact Or.inr ⟨e, ⟨hm, by simp [hst]⟩, rfl⟩

theorem saveAndReload_spec (m : GM_Manager) (entries : List (Ptr × GM_Script))
    (bootstrap : String) (hwf : WellFormedEntries entries) :
    ∃ m', m.saveAndReload entries bootstrap = some m' ∧
      m'.m_disabledScripts = m.m_disabledScripts ∧
      (∀ q, q ∈ m'.allScripts ↔ ∃ e ∈ entries, e.1 = q) ∧
      (∀ e ∈ entries, m'.deref e.1 =
        some (e.2.setEnabled (decide (e.2.fullName ∉ m.m_disabledScripts)))) := by
  obtain ⟨m', h⟩ := load_new_total
    { settings := m.saveSettings none, entries := entries, bootstrap := bootstrap } hwf
  obtain ⟨hd, _, _, _, hent, _⟩ := load_new_spec _ m' h
  refine ⟨m', h, ?_, ?_, ?_⟩
  · simpa [GM_Manager.saveSettings] using hd
  · exact fun q => load_new_mem _ m' h q
  · intro e he
    simpa [GM_Manager.saveSettings] using (hent e he).2

theorem saveAndReload_enabled (m m' : GM_Manager) (entries : List (Ptr × GM_Script))
    (hmem : ∀ q, q ∈ m'.allScripts ↔ ∃ e ∈ entries, e.1 = q)
    (hent : ∀ e ∈ entries, m'.deref e.1 =
      some (e.2.setEnabled (decide (e.2.fullName ∉ m.m_disabledScripts))))
    (q : Ptr) (hq : q ∈ m'.allScripts) (t : GM_Script) (ht : m'.deref q = some t) :
    t.enabled = decide (t.fullName ∉ m.m_disabledScripts) := by
  obtain ⟨e, he, rfl⟩ := (hmem q).mp hq
  rw [hent e he] at ht
  cases ht
  rfl

theorem saveAndReload_named (m' : GM_Manager) (entries : List (Ptr × GM_Script))
    (l : List String) (n : String)
    (hmem : ∀ q, q ∈ m'.allScripts ↔ ∃ e ∈ entries, e.1 = q)
    (hent : ∀ e ∈ entries, m'.deref e.1 = some (e.2.setEnabled (decide (e.2.fullName ∉ l))))
    (hdir : ∃ e ∈ entries, e.2.fullName = n) :
    ∃ q ∈ m'.allScripts, ∃ t, m'.deref q = some t ∧ t.fullName = n := by
  obtain ⟨e, he, hname⟩ := hdir
  exact ⟨e.1, (hmem e.1).mpr ⟨e, he, rfl⟩, _, hent e he, hname⟩

theorem countP_update (l : List Ptr) (p : Ptr) (f g : Ptr → Bool) (hnd : l.Nodup)
    (hp : p ∈ l) (hfg : ∀ q ∈ l, q ≠ p → g q = f q) :
    l.countP g + (if f p = true then 1 else 0) = l.countP f + (if g p = true then 1 else 0) := by
  have hperm := List.perm_cons_erase hp
  rw [List.Perm.countP_eq g hperm, List.Perm.countP_eq f hperm, List.countP_cons,
    List.countP_cons]
  have hrest : (l.erase p).countP g = (l.erase p).countP f := by
    apply List.countP_congr
    intro q hq
    obtain ⟨hne, hql⟩ := (List.Nodup.mem_erase_iff hnd).mp hq
    rw [hfg q hql hne]
  omega

theorem countP_erase_self (l : List Ptr) (p : Ptr) (f : Ptr → Bool) (hp : p ∈ l) :
    (l.erase p).countP f + (if f p = true then 1 else 0) = l.countP f := by
  rw [List.Perm.countP_eq f (List.perm_cons_erase hp), List.countP_cons]

theorem disabledNamed_eq (m m' : GM_Manager) (n : String) (q : Ptr)
    (h : m'.deref q = m.deref q) : m'.disabledNamed n q = m.disabledNamed n q := by
  simp [GM_Manager.disabledNamed, h]

theorem consistent_subset (m : GM_Manager) (h : m.Consistent) :
    ∀ n ∈ m.m_disabledScripts, ∃ p ∈ m.allScripts, ∃ s, m.deref p = some s ∧
      s.fullName = n ∧ s.enabled = false := by
  intro n hn
  have hpos : 0 < m.m_disabledScripts.count n := List.count_pos_iff.mpr hn
  have hc := h.counted n
  obtain ⟨p, hp, hdn⟩ := List.countP_pos_iff.mp (Nat.lt_of_lt_of_le hpos hc)
  refine ⟨p, hp, ?_⟩
  unfold GM_Manager.disabledNamed at hdn
  cases hs : m.deref p with
  | none => simp [hs] at hdn
  | some s =>
    simp only [hs, Bool.and_eq_true, decide_eq_true_eq, Bool.not_eq_true'] at hdn
    exact ⟨s, rfl, hdn.1, hdn.2⟩

theorem allScripts_eq (m : GM_Manager) : m.allScripts = m.m_startScripts ++ m.m_endScripts := by
  simp [GM_Manager.allScripts]

theorem disabledNamed_name (m : GM_Manager) (n : String) (p : Ptr) (s : GM_Script)
    (hp : m.deref p = some s) (h : m.disabledNamed n p = true) : s.fullName = n := by
  simp only [GM_Manager.disabledNamed, hp, Bool.and_eq_true, decide_eq_true_eq] at h
  exact h.1

theorem consistent_update (m m' : GM_Manager) (p : Ptr) (s s' : GM_Script)
    (hc : m.Consistent) (hs : m'.m_startScripts = m.m_startScripts)
    (he : m'.m_endScripts = m.m_endScripts) (hp : m.deref p = some s)
    (hp' : m'.deref p = some s') (hst : s'.startAt = s.startAt)
    (hother : ∀ q, q ≠ p → m'.deref q = m.deref q)
    (hcount : ∀ n, m'.m_disabledScripts.count n ≤ m'.allScripts.countP (m'.disabledNamed n)) :
    m'.Consistent := by
  have hall : m'.allScripts = m.allScripts := by rw [allScripts_eq, allScripts_eq, hs, he]
  have hderef : ∀ q t', m'.deref q = some t' → ∃ t, m.deref q = some t ∧ t'.startAt = t.startAt := by
    intro q t' ht'
    by_cases hq : q = p
    · subst hq
      rw [hp'] at ht'
      cases ht'
      exact ⟨s, hp, hst⟩
    · rw [hother q hq] at ht'
      exact ⟨t', ht', rfl⟩
  refine ⟨hall ▸ hc.nodup, ?_, ?_, ?_, hcount⟩
  · intro q hq
    rw [hall] at hq
    by_cases hqp : q = p
    · rw [hqp, hp']
      rfl
    · rw [hother q hqp]
      exact hc.valid q hq
  · intro q hq t' ht'
    obtain ⟨t, ht, hs'⟩ := hderef q t' ht'
    rw [hs']
    exact hc.inStart q (hs ▸ hq) t ht
  · intro q hq t' ht'
    obtain ⟨t, ht, hs'⟩ := hderef q t' ht'
    rw [hs']
    exact hc.inEnd q (he ▸ hq) t ht

theorem consistent_newScript (m m' : GM_Manager) (p : Ptr) (parsed : GM_Script)
    (hc : m.Consistent) (h : m.newScript p parsed = some m') : m'.Consistent := by
  unfold GM_Manager.newScript at h
  by_cases hp : p = nullptr
  · simp [hp] at h
  · cases hh : m.heap p with
    | some t => simp [hp, hh] at h
    | none =>
      simp only [hp, hh, if_false, Option.some.injEq] at h
      subst h
      have hfree : m.deref p = none := by simp [GM_Manager.deref, hh]
      have hother : ∀ q ∈ m.allScripts,
          (m.store p (parsed.setEnabled true)).deref q = m.deref q := by
        intro q hq
        apply deref_store_other
        intro hqp
        have := hc.valid q hq
        rw [hqp, hfree] at this
        cases this
      refine ⟨hc.nodup, ?_, ?_, ?_, ?_⟩
      · intro q hq
        rw [hother q hq]
        exact hc.valid q hq
      · intro q hq t ht
        rw [hother q (by rw [allScripts_eq]; exact List.mem_append_left _ hq)] at ht
        exact hc.inStart q hq t ht
      · intro q hq t ht
        rw [hother q (by rw [allScripts_eq]; exact List.mem_append_right _ hq)] at ht
        exact hc.inEnd q hq t ht
      · intro n
        have : m.allScripts.countP ((m.store p (parsed.setEnabled true)).disabledNamed n) =
            m.allScripts.countP (m.disabledNamed n) := by
          apply List.countP_congr
          intro q hq
          rw [disabledNamed_eq _ _ n q (hother q hq)]
        exact this ▸ hc.counted n

theorem consistent_append (m m' : GM_Manager) (p : Ptr) (s : GM_Script) (hc : m.Consistent)
    (hp : p ∉ m.allScripts) (hs : m.deref p = some s) (hd : ∀ q, m'.deref q = m.deref q)
    (hl : m'.m_disabledScripts = m.m_disabledScripts)
    (hg : (s.startAt = StartAt.DocumentStart ∧ m'.m_startScripts = m.m_startScripts ++ [p] ∧
        m'.m_endScripts = m.m_endScripts) ∨
      (s.startAt ≠ StartAt.DocumentStart ∧ m'.m_startScripts = m.m_startScripts ∧
        m'.m_endScripts = m.m_endScripts ++ [p])) : m'.Consistent := by
  have hp' : p ∉ m.m_startScripts ∧ p ∉ m.m_endScripts := by
    simpa [mem_allScripts, not_or] using hp
  have hperm : List.Perm m'.allScripts (p :: m.allScripts) := by
    rw [allScripts_eq, allScripts_eq]
    rcases hg with ⟨_, h₁, h₂⟩ | ⟨_, h₁, h₂⟩
    · rw [h₁, h₂, List.append_assoc]
      exact (List.perm_middle).trans (by simp)
    · rw [h₁, h₂, ← List.append_assoc]
      exact List.perm_append_singleton p _
  have hf : ∀ n, m'.disabledNamed n = m.disabledNamed n := fun n =>
    funext fun q => disabledNamed_eq m m' n q (hd q)
  refine ⟨?_, ?_, ?_, ?_, ?_⟩
  · rw [hperm.nodup_iff, List.nodup_cons]
    exact ⟨hp, hc.nodup⟩
  · intro q hq
    rw [hd q]
    rcases List.mem_cons.mp (hperm.mem_iff.mp hq) with hq | hq
    · rw [hq, hs]
      rfl
    · exact hc.valid q hq
  · intro q hq t ht
    rw [hd q] at ht
    rcases hg with ⟨hst, h₁, _⟩ | ⟨_, h₁, _⟩
    · rw [h₁] at hq
      rcases List.mem_append.mp hq with hq | hq
      · exact hc.inStart q hq t ht
      · rw [List.mem_singleton.mp hq, hs] at ht
        cases ht
        exact hst
    · exact hc.inStart q (h₁ ▸ hq) t ht
  · intro q hq t ht
    rw [hd q] at ht
    rcases hg with ⟨_, _, h₂⟩ | ⟨hst, _, h₂⟩
    · exact hc.inEnd q (h₂ ▸ hq) t ht
    · rw [h₂] at hq
      rcases List.mem_append.mp hq with hq | hq
      · exact hc.inEnd q hq t ht
      · rw [List.mem_singleton.mp hq, hs] at ht
        cases ht
        exact hst
  · intro n
    rw [hl, hf n, List.Perm.countP_eq _ hperm, List.countP_cons]
    exact Nat.le_trans (hc.counted n) (Nat.le_add_right _ _)

theorem consistent_addScript (m m' : GM_Manager) (p : Ptr) (hc : m.Consistent)
    (hp : p ∉ m.allScripts) (h : m.addScript p = some (true, m')) : m'.Consistent := by
  cases hs : m.deref p with
  | none =>
    by_cases hnull : p = nullptr <;> simp [GM_Manager.addScript, hnull, hs] at h
  | some s =>
    rw [addScript_eq m p s hs] at h
    simp only [Option.some.injEq, Prod.mk.injEq, true_and] at h
    subst h
    refine consistent_append m _ p s hc hp hs (fun _ => rfl) rfl ?_
    by_cases hst : s.startAt = StartAt.DocumentStart
    · exact Or.inl ⟨hst, by simp [hst], by simp [hst]⟩
    · exact Or.inr ⟨hst, by simp [hst], by simp [hst]⟩

theorem disabledNamed_le_name (m : GM_Manager) (n : String) (p : Ptr) (s : GM_Script)
    (hp : m.deref p = some s) :
    (if m.disabledNamed n p = true then 1 else 0) ≤
      (if (s.fullName == n) = true then 1 else 0) := by
  by_cases hf : m.disabledNamed n p = true
  · have := disabledNamed_name m n p s hp hf
    simp [hf, this]
  · simp [hf]

theorem consistent_removeScript (m m' : GM_Manager) (p : Ptr) (hc : m.Consistent)
    (hp : p ∈ m.allScripts) (h : m.removeScript p = some (true, m')) : m'.Consistent := by
  obtain ⟨s, hs⟩ := Option.isSome_iff_exists.mp (hc.valid p hp)
  rw [removeScript_eq m p s hs] at h
  simp only [Option.some.injEq, Prod.mk.injEq, true_and] at h
  have hdp : m'.deref p = none := by
    rw [← h]
    simp [GM_Manager.deref]
  have hd : ∀ q, q ≠ p → m'.deref q = m.deref q := by
    intro q hq
    rw [← h]
    simp [GM_Manager.deref, hq]
  have hl : m'.m_disabledScripts = m.m_disabledScripts.erase s.fullName := by rw [← h]
  have hsub₁ : ∀ q ∈ m'.m_startScripts, q ∈ m.m_startScripts := by
    intro q hq
    rw [← h] at hq
    by_cases hst : s.startAt = StartAt.DocumentStart
    · simp only [hst, if_true] at hq
      exact List.mem_of_mem_erase hq
    · simpa only [hst, if_false] using hq
  have hsub₂ : ∀ q ∈ m'.m_endScripts, q ∈ m.m_endScripts := by
    intro q hq
    rw [← h] at hq
    by_cases hst : s.startAt = StartAt.DocumentStart
    · simpa only [hst, if_true] using hq
    · simp only [hst, if_false] at hq
      exact List.mem_of_mem_erase hq
  have hall : m'.allScripts = m.allScripts.erase p := by
    rw [allScripts_eq, allScripts_eq, ← h]
    by_cases hst : s.startAt = StartAt.DocumentStart
    · have hin : p ∈ m.m_startScripts := by
        rcases (mem_allScripts m p).mp hp with hin | hin
        · exact hin
        · exact absurd hst (hc.inEnd p hin s hs)
      simp only [hst, if_true]
      rw [List.erase_append_left _ hin]
    · have hout : p ∉ m.m_startScripts := fun hin => hst (hc.inStart p hin s hs)
      simp only [hst, if_false]
      rw [List.erase_append_right _ hout]
  have hlive : ∀ q t, m'.deref q = some t → m.deref q = some t := by
    intro q t ht
    by_cases hq : q = p
    · rw [hq, hdp] at ht
      cases ht
    · rwa [hd q hq] at ht
  refine ⟨hall ▸ hc.nodup.erase p, ?_, ?_, ?_, ?_⟩
  · intro q hq
    rw [hall] at hq
    obtain ⟨hne, hql⟩ := (List.Nodup.mem_erase_iff hc.nodup).mp hq
    rw [hd q hne]
    exact hc.valid q hql
  · exact fun q hq t ht => hc.inStart q (hsub₁ q hq) t (hlive q t ht)
  · exact fun q hq t ht => hc.inEnd q (hsub₂ q hq) t (hlive q t ht)
  · intro n
    have hrest : (m.allScripts.erase p).countP (m'.disabledNamed n) =
        (m.allScripts.erase p).countP (m.disabledNamed n) := by
      apply List.countP_congr
      intro q hq
      obtain ⟨hne, _⟩ := (List.Nodup.mem_erase_iff hc.nodup).mp hq
      rw [disabledNamed_eq m m' n q (hd q hne)]
    have h₁ := countP_erase_self m.allScripts p (m.disabledNamed n) hp
    have h₂ := List.count_erase n s.fullName m.m_disabledScripts
    have h₃ := disabledNamed_le_name m n p s hs
    have h₄ := hc.counted n
    rw [hall, hl, hrest]
    omega

theorem consistent_enableScript (m m' : GM_Manager) (p : Ptr) (hc : m.Consistent)
    (h : m.enableScript p = some m') : m'.Consistent := by
  cases hs : m.deref p with
  | none => simp [GM_Manager.enableScript, hs] at h
  | some s =>
    rw [enableScript_eq m p s hs] at h
    simp only [Option.some.injEq] at h
    have hnull := deref_ne_null m p s hs
    have hp' : m'.deref p = some (s.setEnabled true) := by
      rw [← h, deref_with_disabled, deref_store_same m p _ hnull]
    have hother : ∀ q, q ≠ p → m'.deref q = m.deref q := by
      intro q hq
      rw [← h, deref_with_disabled, deref_store_other m p q _ hq]
    have hl : m'.m_disabledScripts = m.m_disabledScripts.erase s.fullName := by rw [← h]
    have hall : m'.allScripts = m.allScripts := by rw [← h]; rfl
    refine consistent_update m m' p s _ hc (by rw [← h]; rfl) (by rw [← h]; rfl) hs hp' rfl
      hother ?_
    intro n
    have hgp : m'.disabledNamed n p = false := by
      simp [GM_Manager.disabledNamed, hp', GM_Script.setEnabled]
    have h₂ := List.count_erase n s.fullName m.m_disabledScripts
    have h₃ := disabledNamed_le_name m n p s hs
    have h₄ := hc.counted n
    rw [hall, hl]
    by_cases hp : p ∈ m.allScripts
    · have h₁ := countP_update m.allScripts p (m.disabledNamed n) (m'.disabledNamed n)
        hc.nodup hp fun q _ hq => disabledNamed_eq m m' n q (hother q hq)
      simp only [hgp, Bool.false_eq_true, if_false] at h₁
      omega
    · have h₁ : m.allScripts.countP (m'.disabledNamed n) =
          m.allScripts.countP (m.disabledNamed n) := by
        apply List.countP_congr
        intro q hq
        have hne : q ≠ p := fun hqp => hp (hqp ▸ hq)
        rw [disabledNamed_eq m m' n q (hother q hne)]
      omega

theorem consistent_disableScript (m m' : GM_Manager) (p : Ptr) (s : GM_Script)
    (hc : m.Consistent) (hp : p ∈ m.allScripts) (hs : m.deref p = some s)
    (hen : s.enabled = true) (h : m.disableScript p = some m') : m'.Consistent := by
  rw [disableScript_eq m p s hs] at h
  simp only [Option.some.injEq] at h
  have hnull := deref_ne_null m p s hs
  have hp' : m'.deref p = some (s.setEnabled false) := by
    rw [← h, deref_with_disabled, deref_store_same m p _ hnull]
  have hother : ∀ q, q ≠ p → m'.deref q = m.deref q := by
    intro q hq
    rw [← h, deref_with_disabled, deref_store_other m p q _ hq]
  have hl : m'.m_disabledScripts = m.m_disabledScripts ++ [s.fullName] := by rw [← h]
  have hall : m'.allScripts = m.allScripts := by rw [← h]; rfl
  refine consistent_update m m' p s _ hc (by rw [← h]; rfl) (by rw [← h]; rfl) hs hp' rfl
    hother ?_
  intro n
  have hfp : m.disabledNamed n p = false := by
    simp [GM_Manager.disabledNamed, hs, hen]
  have hgp : m'.disabledNamed n p = decide (s.fullName = n) := by
    simp [GM_Manager.disabledNamed, hp', GM_Script.setEnabled]
  have h₁ := countP_update m.allScripts p (m.disabledNamed n) (m'.disabledNamed n)
    hc.nodup hp fun q _ hq => disabledNamed_eq m m' n q (hother q hq)
  have h₄ := hc.counted n
  rw [hall, hl, List.count_append, List.count_singleton]
  simp only [hfp, hgp, Bool.false_eq_true, if_false, decide_eq_true_eq] at h₁
  by_cases hname : s.fullName = n
  · simp only [hname, if_true, beq_self_eq_true] at h₁ ⊢
    omega
  · have hb : (s.fullName == n) = false := by simpa using hname
    simp only [hname, if_false, hb, Bool.false_eq_true] at h₁ ⊢
    omega

theorem consistent_load (env : LoadEnv) (m : GM_Manager)
    (hnd : (env.settings.getD []).Nodup)
    (hnames : ∀ n ∈ env.settings.getD [], ∃ e ∈ env.entries, e.2.fullName = n)
    (h : GM_Manager.new.load env = some m) : m.Consistent := by
  obtain ⟨hd, hs, he, _, hent, hnd'⟩ := load_new_spec env m h
  have hmem := load_new_mem env m h
  refine ⟨?_, ?_, ?_, ?_, ?_⟩
  · rw [allScripts_eq, hs, he, ← List.map_append]
    exact ((List.filter_append_perm _ env.entries).map Prod.fst).nodup_iff.mpr hnd'
  · intro q hq
    obtain ⟨e, he_mem, rfl⟩ := (hmem q).mp hq
    rw [(hent e he_mem).2]
    rfl
  · intro q hq t ht
    rw [hs] at hq
    obtain ⟨e, he_mem, rfl⟩ := List.mem_map.mp hq
    obtain ⟨he_in, he_st⟩ := List.mem_filter.mp he_mem
    rw [(hent e he_in).2] at ht
    cases ht
    simpa using he_st
  · intro q hq t ht
    rw [he] at hq
    obtain ⟨e, he_mem, rfl⟩ := List.mem_map.mp hq
    obtain ⟨he_in, he_st⟩ := List.mem_filter.mp he_mem
    rw [(hent e he_in).2] at ht
    cases ht
    simpa using he_st
  · intro n
    rw [hd]
    by_cases hn : n ∈ env.settings.getD []
    · obtain ⟨e, he_in, he_name⟩ := hnames n hn
      have hone : (env.settings.getD []).count n ≤ 1 := List.nodup_iff_count_le_one.mp hnd n
      have hpos : 0 < m.allScripts.countP (m.disabledNamed n) := by
        rw [List.countP_pos_iff]
        refine ⟨e.1, (hmem e.1).mpr ⟨e, he_in, rfl⟩, ?_⟩
        simp [GM_Manager.disabledNamed, (hent e he_in).2, GM_Script.setEnabled, he_name, hn]
      omega
    · rw [List.count_eq_zero_of_not_mem hn]
      exact Nat.zero_le _

theorem reachable_consistent (m : GM_Manager) (h : Reachable m) : m.Consistent := by
  induction h with
  | load env m hnd hnames hload => exact consistent_load env m hnd hnames hload
  | newScript m p parsed m' _ hnew ih => exact consistent_newScript m m' p parsed ih hnew
  | addScript m p m' _ hp hadd ih => exact consistent_addScript m m' p ih hp hadd
  | removeScript m p m' _ hp hrem ih => exact consistent_removeScript m m' p ih hp hrem
  | enableScript m p m' _ hen ih => exact consistent_enableScript m m' p ih hen
  | disableScript m p s m' _ hp hs hen hdis ih =>
    exact consistent_disableScript m m' p s ih hp hs hen hdis

theorem removeScript_allScripts (m m' : GM_Manager) (p : Ptr) (s : GM_Script)
    (hc : m.Consistent) (hp : p ∈ m.allScripts) (hs : m.deref p = some s)
    (h : m.removeScript p = some (true, m')) :
    m'.allScripts = m.allScripts.erase p ∧ ∀ q, q ≠ p → m'.deref q = m.deref q := by
  rw [removeScript_eq m p s hs] at h
  simp only [Option.some.injEq, Prod.mk.injEq, true_and] at h
  constructor
  · rw [allScripts_eq, allScripts_eq, ← h]
    by_cases hst : s.startAt = StartAt.DocumentStart
    · have hin : p ∈ m.m_startScripts := by
        rcases (mem_allScripts m p).mp hp with hin | hin
        · exact hin
        · exact absurd hst (hc.inEnd p hin s hs)
      simp only [hst, if_true]
      rw [List.erase_append_left _ hin]
    · have hout : p ∉ m.m_startScripts := fun hin => hst (hc.inStart p hin s hs)
      simp only [hst, if_false]
      rw [List.erase_append_right _ hout]
  · intro q hq
    rw [← h]
    simp [GM_Manager.deref, hq]

theorem load_valid (env : LoadEnv) (m : GM_Manager) (h : GM_Manager.new.load env = some m) :
    m.Valid := by
  intro q hq
  obtain ⟨e, he, rfl⟩ := (load_new_mem env m h q).mp hq
  rw [((load_new_spec env m h).2.2.2.2.1 e he).2]
  rfl

/-- C3: on a registry whose groups hold live descriptors, a script whose enabled flag is
false gets no evaluation from `pageLoadStart`, for any frame and URL, whatever its patterns;
this holds in particular for a script right after `disableScript`, and for a script of the
directory whose name `load` found in the persisted disabled list. -/
theorem disabled_never_injected (m : GM_Manager) (frame : Option QWebFrame) (p : Ptr)
    (hv : m.Valid) :
    (∀ s, m.deref p = some s → s.enabled = false →
      ∃ es, m.pageLoadStart frame = some es ∧ ∀ e ∈ es, e.script ≠ p) ∧
    (∀ m', m.disableScript p = some m' →
      ∃ es, m'.pageLoadStart frame = some es ∧ ∀ e ∈ es, e.script ≠ p) ∧
    (∀ env m', GM_Manager.new.load env = some m' →
      ∀ entry ∈ env.entries, entry.2.fullName ∈ env.settings.getD [] →
        entry.1 ∈ m'.allScripts ∧
        ∃ es, m'.pageLoadStart frame = some es ∧ ∀ e ∈ es, e.script ≠ entry.1) := by
  have key : ∀ (m : GM_Manager) (p : Ptr), m.Valid → ∀ s, m.deref p = some s →
      s.enabled = false → ∃ es, m.pageLoadStart frame = some es ∧ ∀ e ∈ es, e.script ≠ p := by
    intro m p hv s hp hd
    obtain ⟨es, hes, hall⟩ := pageLoadStart_total m frame hv
    refine ⟨es, hes, ?_⟩
    intro e he hep
    obtain ⟨u, hu⟩ := hall e he
    rw [hep, matches_false_of_disabled m u p s hp hd] at hu
    exact Bool.false_ne_true hu
  refine ⟨key m p hv, ?_, ?_⟩
  · intro m' hm'
    cases hp : m.deref p with
    | none => simp [GM_Manager.disableScript, hp] at hm'
    | some s =>
      rw [disableScript_eq m p s hp] at hm'
      cases hm'
      have hnull := deref_ne_null m p s hp
      refine key _ p ?_ (s.setEnabled false) ?_ rfl
      · refine valid_of_deref_eq m _ hv rfl ?_
        intro q hq
        rw [deref_with_disabled]
        by_cases hqp : q = p
        · rw [hqp, deref_store_same m p _ hnull]
          rfl
        · rw [deref_store_other m p q _ hqp]
          exact hq
      · rw [deref_with_disabled, deref_store_same m p _ hnull]
  · intro env m' hload entry hentry hname
    refine ⟨(load_new_mem env m' hload entry.1).mpr ⟨entry, hentry, rfl⟩, ?_⟩
    refine key m' entry.1 (load_valid env m' hload) _
      ((load_new_spec env m' hload).2.2.2.2.1 entry hentry).2 ?_
    simp [GM_Script.setEnabled, hname]

/-- Witness of C3: the disabled `scriptC` of the sample registry on a URL its patterns
match. -/
theorem disabled_never_injected_witness :
    sampleManager.Valid ∧ sampleManager.deref 3 = some scriptC ∧ scriptC.enabled = false ∧
      scriptC.patternsMatch "https://shop.example.com/" = true ∧
      ∃ es, sampleManager.pageLoadStart (some ⟨"https", "https://shop.example.com/"⟩) = some es ∧
        ∀ e ∈ es, e.script ≠ 3 :=
  ⟨by decide, by decide, by decide, by decide,
    (disabled_never_injected sampleManager (some ⟨"https", "https://shop.example.com/"⟩) 3
      (by decide)).1 scriptC (by decide) (by decide)⟩

/-! ## Mutators -/

/-- C7: `addScript` returns false exactly for the null descriptor and then leaves the state
as it is; for a descriptor that points to a script it returns true, the descriptor becomes
the last element of the group its `startAt` selects, the earlier elements of that group keep
their order, and the other group, the disabled list and the scripts are unchanged. Nothing
is assumed about the names already registered. -/
theorem addScript_post (m : GM_Manager) (p : Ptr) :
    m.addScript nullptr = some (false, m) ∧
    (∀ m', m.addScript p = some (false, m') → p = nullptr) ∧
    (∀ s, m.deref p = some s →
      ∃ m', m.addScript p = some (true, m') ∧
        (s.startAt = StartAt.DocumentStart →
          m'.m_startScripts = m.m_startScripts ++ [p] ∧ m'.m_endScripts = m.m_endScripts) ∧
        (s.startAt ≠ StartAt.DocumentStart →
          m'.m_endScripts = m.m_endScripts ++ [p] ∧ m'.m_startScripts = m.m_startScripts) ∧
        m'.m_disabledScripts = m.m_disabledScripts ∧ m'.heap = m.heap) := by
  refine ⟨by simp [GM_Manager.addScript], ?_, ?_⟩
  · intro m' h
    by_contra hp
    cases hs : m.deref p with
    | none => simp [GM_Manager.addScript, hp, hs] at h
    | some s => simp [GM_Manager.addScript, hp, hs] at h
  · intro s hs
    have hp := deref_ne_null m p s hs
    refine ⟨_, addScript_eq m p s hs, ?_, ?_, rfl, rfl⟩
    · intro hst
      simp [hst]
    · intro hst
      simp [hst]

/-- Witness of C7: adding the descriptor of `scriptB` once more, while a script of that
name is registered. -/
theorem addScript_post_witness :
    sampleManager.deref 2 = some scriptB ∧ sampleManager.containsScript "ns/B" = some true ∧
      ∃ m', sampleManager.addScript 2 = some (true, m') ∧ m'.m_endScripts = [2, 3, 2] ∧
        m'.m_startScripts = [1] ∧ m'.m_disabledScripts = ["ns/C"] := by
  refine ⟨by decide, by decide, ?_⟩
  obtain ⟨m', h, _, he, hd, _⟩ := (addScript_post sampleManager 2).2.2 scriptB (by decide)
  exact ⟨m', h, (he (by decide)).1, (he (by decide)).2, hd⟩

/-- C8: for a descriptor that points to a script `s`, `enableScript` / `disableScript` set
the enabled flag of `s` to true / false and leave its other fields, both groups and every
other script as they were; in the disabled list only occurrences of the full name of `s`
change (one is removed / one is appended), every other name keeps its occurrences and
order. -/
theorem enable_disable_frame (m : GM_Manager) (p : Ptr) (s : GM_Script)
    (h : m.deref p = some s) :
    (∃ m', m.enableScript p = some m' ∧ m'.deref p = some { s with enabled := true } ∧
      m'.m_startScripts = m.m_startScripts ∧ m'.m_endScripts = m.m_endScripts ∧
      (∀ q, q ≠ p → m'.deref q = m.deref q) ∧
      m'.m_disabledScripts = m.m_disabledScripts.erase s.fullName ∧
      m'.m_disabledScripts.filter (fun n => decide (n ≠ s.fullName)) =
        m.m_disabledScripts.filter (fun n => decide (n ≠ s.fullName))) ∧
    (∃ m', m.disableScript p = some m' ∧ m'.deref p = some { s with enabled := false } ∧
      m'.m_startScripts = m.m_startScripts ∧ m'.m_endScripts = m.m_endScripts ∧
      (∀ q, q ≠ p → m'.deref q = m.deref q) ∧
      m'.m_disabledScripts = m.m_disabledScripts ++ [s.fullName] ∧
      m'.m_disabledScripts.filter (fun n => decide (n ≠ s.fullName)) =
        m.m_disabledScripts.filter (fun n => decide (n ≠ s.fullName))) := by
  have hp := deref_ne_null m p s h
  constructor
  · refine ⟨_, enableScript_eq m p s h, ?_, rfl, rfl, ?_, rfl, filter_ne_erase _ _⟩
    · rw [deref_with_disabled, deref_store_same m p _ hp]
      rfl
    · intro q hq
      rw [deref_with_disabled, deref_store_other m p q _ hq]
  · refine ⟨_, disableScript_eq m p s h, ?_, rfl, rfl, ?_, rfl, filter_ne_append_self _ _⟩
    · rw [deref_with_disabled, deref_store_same m p _ hp]
      rfl
    · intro q hq
      rw [deref_with_disabled, deref_store_other m p q _ hq]

/-- Witness of C8: enabling the disabled `scriptC` of the sample registry. -/
theorem enable_disable_frame_witness :
    sampleManager.deref 3 = some scriptC ∧
      ∃ m', sampleManager.enableScript 3 = some m' ∧
        m'.deref 3 = some { scriptC with enabled := true } ∧ m'.m_disabledScripts = [] ∧
        m'.m_endScripts = [2, 3] := by
  refine ⟨by decide, ?_⟩
  obtain ⟨⟨m', h, hd, _, he, _, hl, _⟩, _⟩ :=
    enable_disable_frame sampleManager 3 scriptC (by decide)
  exact ⟨m', h, hd, hl.trans (by decide), he⟩

/-- Counterexample to C5: in the sample registry the first `removeScript` of the registered
`scriptB` returns true, and the second call on the same descriptor does not return false: it
dereferences the descriptor the first call released. -/
theorem removeScript_twice_counterexample :
    sampleManager.deref 2 = some scriptB ∧ 2 ∈ sampleManager.allScripts ∧
      (sampleManager.removeScript 2).map Prod.fst = some true ∧
      ((sampleManager.removeScript 2).bind fun r => (r.2.removeScript 2).map Prod.fst) ≠
        some false := by
  decide

/-- C5, amended: `removeScript` on a descriptor that points to a script returns true,
removes the first occurrence of the descriptor from the group its `startAt` selects and one
occurrence of its full name from the disabled list, calls `QFile::remove` on the backing file
exactly once and releases the descriptor; it returns false only for the null descriptor, and
then leaves the state as it is. -/
theorem removeScript_post (m : GM_Manager) (p : Ptr) :
    m.removeScript nullptr = some (false, m) ∧
    (∀ m', m.removeScript p = some (false, m') → p = nullptr) ∧
    (∀ s, m.deref p = some s →
      ∃ m', m.removeScript p = some (true, m') ∧
        m'.m_startScripts =
          (if s.startAt = StartAt.DocumentStart then m.m_startScripts.erase p
            else m.m_startScripts) ∧
        m'.m_endScripts =
          (if s.startAt = StartAt.DocumentStart then m.m_endScripts
            else m.m_endScripts.erase p) ∧
        m'.m_disabledScripts = m.m_disabledScripts.erase s.fullName ∧
        m'.removedFiles = m.removedFiles ++ [s.fileName] ∧
        m'.deref p = none ∧ ∀ q, q ≠ p → m'.deref q = m.deref q) := by
  refine ⟨by simp [GM_Manager.removeScript], ?_, ?_⟩
  · intro m' h
    by_contra hp
    cases hs : m.deref p with
    | none => simp [GM_Manager.removeScript, hp, hs] at h
    | some s => simp [GM_Manager.removeScript, hp, hs] at h
  · intro s hs
    refine ⟨_, removeScript_eq m p s hs, rfl, rfl, rfl, rfl, ?_, ?_⟩
    · simp [GM_Manager.deref]
    · intro q hq
      simp [GM_Manager.deref, hq]

/-- Witness of C5, amended: removing `scriptB` from the sample registry. -/
theorem removeScript_post_witness :
    sampleManager.deref 2 = some scriptB ∧
      ∃ m', sampleManager.removeScript 2 = some (true, m') ∧ m'.m_startScripts = [1] ∧
        m'.m_endScripts = [3] ∧ m'.removedFiles = ["/gm/b.js"] ∧ m'.deref 2 = none := by
  refine ⟨by decide, ?_⟩
  obtain ⟨m', h, hs, he, _, hf, hd, _⟩ :=
    (removeScript_post sampleManager 2).2.2 scriptB (by decide)
  exact ⟨m', h, hs.trans (by decide), he.trans (by decide), hf.trans (by decide), hd⟩

/-! ## The disabled list and the registered scripts -/

/-- Counterexample to C4: a load from a disabled list that names a script absent from the
directory keeps that name, with no script registered; and in the registry loaded from the
sample directory, after `disableScript` twice on `scriptB` and `removeScript` of it, its name
is still in the disabled list although no script of that name is registered. -/
theorem disabled_subset_counterexample :
    (GM_Manager.new.load { settings := some ["ns/Gone"] }).map
        (fun m => (m.m_disabledScripts, m.allScripts)) = some (["ns/Gone"], []) ∧
    ((GM_Manager.new.load { entries := sampleDir }).bind fun m =>
      (m.disableScript 2).bind fun m =>
      (m.disableScript 2).bind fun m =>
      (m.removeScript 2).bind fun r =>
      (r.2.containsScript "ns/B").map fun b => (r.1, r.2.m_disabledScripts, r.2.allScripts, b)) =
      some (true, ["ns/B"], [1, 3], false) := by
  decide

/-- C4, amended: in every registry state reached from a load whose disabled list is
duplicate-free and names only scripts of the directory, by creating descriptors, `addScript`
of descriptors not yet registered, `removeScript` of registered descriptors, `enableScript`,
and `disableScript` of registered descriptors whose script is enabled, every name of the
disabled list is the full name of a script present in the start or the end group; and after
`removeScript` of a registered script whose full name no other registered script bears, that
name is not in the disabled list. -/
theorem disabled_subset_of_reachable (m : GM_Manager) (h : Reachable m) :
    (∀ n ∈ m.m_disabledScripts, ∃ p ∈ m.allScripts, ∃ s, m.deref p = some s ∧
      s.fullName = n) ∧
    (∀ p s m', p ∈ m.allScripts → m.deref p = some s → m.removeScript p = some (true, m') →
      (∀ q ∈ m.allScripts, q ≠ p → ∀ t, m.deref q = some t → t.fullName ≠ s.fullName) →
      s.fullName ∉ m'.m_disabledScripts) := by
  have hc := reachable_consistent m h
  constructor
  · intro n hn
    obtain ⟨p, hp, s, hs, hname, _⟩ := consistent_subset m hc n hn
    exact ⟨p, hp, s, hs, hname⟩
  · intro p s m' hp hs hrem huniq hmem
    have hc' := consistent_removeScript m m' p hc hp hrem
    obtain ⟨hall, hd⟩ := removeScript_allScripts m m' p s hc hp hs hrem
    obtain ⟨q, hq, t, ht, hname, _⟩ := consistent_subset m' hc' _ hmem
    rw [hall] at hq
    obtain ⟨hne, hql⟩ := (List.Nodup.mem_erase_iff hc.nodup).mp hq
    rw [hd q hne] at ht
    exact huniq q hql hne t ht hname

/-- Witness of C4, amended: the registry loaded from the sample directory, after
`disableScript` on the enabled `scriptB`. -/
theorem disabled_subset_of_reachable_witness :
    Reachable sampleDisabled ∧ sampleDisabled.m_disabledScripts = ["ns/C", "ns/B"] ∧
      ∀ n ∈ sampleDisabled.m_disabledScripts, ∃ p ∈ sampleDisabled.allScripts, ∃ s,
        sampleDisabled.deref p = some s ∧ s.fullName = n := by
  have hr : Reachable sampleDisabled :=
    Reachable.disableScript sampleLoaded 2 scriptB sampleDisabled
      (Reachable.load sampleEnv sampleLoaded (by decide) (by decide) rfl)
      (by decide) (by decide) (by decide) rfl
  exact ⟨hr, by decide, (disabled_subset_of_reachable sampleDisabled hr).1⟩

/-! ## Persistence of the disabled list -/

/-- Counterexample to C6: in the sample registry `scriptB` is disabled twice; after saving
and reloading it is disabled; it is then enabled once, and after saving and reloading again
the one descriptor of that name is still disabled. -/
theorem round_trip_counterexample :
    ((sampleManager.disableScript 2).bind fun m₁ =>
      (m₁.disableScript 2).bind fun m₁ =>
      (m₁.saveAndReload sampleDir "boot;").bind fun m₂ =>
      (m₂.enableScript 2).bind fun m₃ =>
      (m₃.saveAndReload sampleDir "boot;").bind fun m₄ =>
      (m₄.deref 2).map fun t => (m₄.allScripts, t.fullName, t.enabled)) =
      some ([1, 2, 3], "ns/B", false) := by
  decide

/-- C6, amended: for a descriptor that points to a script `s` and a well-formed directory
holding a script of the name of `s`: `disableScript`, `saveSettings` and a load in a new
manager give a descriptor of that name, and every descriptor of that name is disabled,
whatever the disabled list held before. If the disabled list did not hold the name of `s`
before `disableScript`, then `enableScript` on such a descriptor, `saveSettings` and another
load give a descriptor of that name, and every descriptor of that name is enabled. -/
theorem enable_disable_round_trip (m : GM_Manager) (p : Ptr) (s : GM_Script)
    (entries : List (Ptr × GM_Script)) (bootstrap : String)
    (hp : m.deref p = some s) (hwf : WellFormedEntries entries)
    (hdir : ∃ e ∈ entries, e.2.fullName = s.fullName) :
    ∃ m₁ m₂, m.disableScript p = some m₁ ∧ m₁.saveAndReload entries bootstrap = some m₂ ∧
      (∃ q ∈ m₂.allScripts, ∃ t, m₂.deref q = some t ∧ t.fullName = s.fullName) ∧
      ∀ q ∈ m₂.allScripts, ∀ t, m₂.deref q = some t → t.fullName = s.fullName →
        t.enabled = false ∧
        (s.fullName ∉ m.m_disabledScripts →
          ∃ m₃ m₄, m₂.enableScript q = some m₃ ∧
            m₃.saveAndReload entries bootstrap = some m₄ ∧
            (∃ q' ∈ m₄.allScripts, ∃ t', m₄.deref q' = some t' ∧ t'.fullName = s.fullName) ∧
            ∀ q' ∈ m₄.allScripts, ∀ t', m₄.deref q' = some t' → t'.fullName = s.fullName →
              t'.enabled = true) := by
  obtain ⟨m₂, h₂, hd₂, hmem₂, hent₂⟩ := saveAndReload_spec
    { m.store p (s.setEnabled false) with
      m_disabledScripts := m.m_disabledScripts ++ [s.fullName] } entries bootstrap hwf
  refine ⟨_, m₂, disableScript_eq m p s hp, h₂,
    saveAndReload_named m₂ entries _ _ hmem₂ hent₂ hdir, ?_⟩
  intro q hq t ht hname
  have hen := saveAndReload_enabled _ m₂ entries hmem₂ hent₂ q hq t ht
  refine ⟨by simpa [hname] using hen, ?_⟩
  intro hn
  obtain ⟨m₄, h₄, _, hmem₄, hent₄⟩ := saveAndReload_spec
    { m₂.store q (t.setEnabled true) with
      m_disabledScripts := m₂.m_disabledScripts.erase t.fullName } entries bootstrap hwf
  refine ⟨_, m₄, enableScript_eq m₂ q t ht, h₄,
    saveAndReload_named m₄ entries _ _ hmem₄ hent₄ hdir, ?_⟩
  intro q' hq' t' ht' hname'
  have hen' := saveAndReload_enabled _ m₄ entries hmem₄ hent₄ q' hq' t' ht'
  have hgone : s.fullName ∉ (m.m_disabledScripts ++ [s.fullName]).erase s.fullName := by
    rw [List.erase_append_right _ hn]
    simpa using hn
  rw [hen']
  simp only [hd₂, hname, hname']
  simpa using hgone

/-- Witness of C6, amended: `scriptB` of the sample registry, disabled once and enabled
again across two reloads of the sample directory. -/
theorem enable_disable_round_trip_witness :
    sampleManager.deref 2 = some scriptB ∧ WellFormedEntries sampleDir ∧
      "ns/B" ∉ sampleManager.m_disabledScripts ∧
      ∃ m₁ m₂ q t m₃ m₄, sampleManager.disableScript 2 = some m₁ ∧
        m₁.saveAndReload sampleDir "boot;" = some m₂ ∧
        m₂.deref q = some t ∧ t.fullName = "ns/B" ∧ t.enabled = false ∧
        m₂.enableScript q = some m₃ ∧ m₃.saveAndReload sampleDir "boot;" = some m₄ ∧
        ∃ q' ∈ m₄.allScripts, ∃ t', m₄.deref q' = some t' ∧ t'.fullName = "ns/B" ∧
          t'.enabled = true := by
  refine ⟨by decide, by decide, by decide, ?_⟩
  obtain ⟨m₁, m₂, h₁, h₂, ⟨q, hq, t, ht, hname⟩, hall⟩ :=
    enable_disable_round_trip sampleManager 2 scriptB sampleDir "boot;" (by decide)
      (by decide) ⟨(2, scriptB), by decide, rfl⟩
  obtain ⟨hoff, hon⟩ := hall q hq t ht hname
  obtain ⟨m₃, m₄, h₃, h₄, ⟨q', hq', t', ht', hname'⟩, hall'⟩ := hon (by decide)
  exact ⟨m₁, m₂, q, t, m₃, m₄, h₁, h₂, ht, hname, hoff, h₃, h₄, q', hq', t', ht', hname',
    hall' q' hq' t' ht' hname'⟩

/-! ## requireScripts -/

/-- C9: when the requires directory exists, `requireScripts` returns the concatenation, in
the order of the URL list, of the trimmed content of the cached file of each URL that has an
index entry, each piece followed by a newline; URLs without an entry contribute nothing, and
an empty list or a list without any cached URL gives the empty string. -/
theorem requireScripts_spec (env : RequiresEnv) (urlList : List String)
    (hdir : env.requiresDirExists = true) :
    requireScripts env urlList = concat (requirePieces env urlList) ∧
    requireScripts env [] = "" ∧
    ((∀ url ∈ urlList, env.files url = none) → requireScripts env urlList = "") := by
  have main : requireScripts env urlList = concat (requirePieces env urlList) := by
    unfold requireScripts
    cases urlList with
    | nil => simp [requirePieces, concat]
    | cons url rest =>
      simp only [hdir, Bool.not_true, List.isEmpty_cons, Bool.or_self, Bool.false_eq_true,
        if_false]
      rw [requireScripts_foldl]
      simp
  refine ⟨main, by simp [requireScripts], ?_⟩
  intro hnone
  rw [main]
  have : urlList.filterMap env.files = [] := by
    rw [List.filterMap_eq_nil_iff]
    exact hnone
  simp [requirePieces, this, concat]

/-- Witness of C9: two cached URLs around one that is not cached. -/
theorem requireScripts_spec_witness :
    sampleRequires.requiresDirExists = true ∧
      requireScripts sampleRequires ["http://x/b.js", "http://x/none.js", "http://x/a.js"] =
        "var b;\nvar a;\n" :=
  ⟨rfl, (requireScripts_spec sampleRequires
    ["http://x/b.js", "http://x/none.js", "http://x/a.js"] rfl).1.trans (by decide)⟩

end GreaseMonkey
